import Mathlib

/-!
Verification development for the structural analysis engine
(`packages/analyzer/src/duplication.rs` and `packages/analyzer/src/ast_parser.rs`).

Text is modelled at the code-point level as `List Char`; Rust `str` operations
(`lines`, `split_whitespace`, `memmem::find`, slice `windows`) are embedded as
executable Lean functions with the same observable behaviour.  Floating-point
similarity scores are modelled in exact rational arithmetic (`ℚ`); the only
float operations the source performs are a division of two small natural
numbers and a comparison against the literal `0.8`, which the rational model
reflects faithfully for all realistic word counts.
-/

namespace Analyzer

/-- Rust `char::is_whitespace`: the full Unicode `White_Space` set —
U+0009–U+000D, U+0020, U+0085, U+00A0, U+1680, U+2000–U+200A, U+2028,
U+2029, U+202F, U+205F and U+3000. -/
def isWS (c : Char) : Bool :=
  c = ' ' || c = '\t' || c = '\n' || c = '\x0b' || c = '\x0c' || c = '\r' ||
    c = '\u0085' || c = '\u00A0' || c = '\u1680' ||
    (0x2000 ≤ c.toNat && c.toNat ≤ 0x200A) ||
    c = '\u2028' || c = '\u2029' || c = '\u202F' || c = '\u205F' || c = '\u3000'

/-- Model of Rust `str::split_whitespace`: maximal runs of non-whitespace
characters, in order.  `acc` holds the current word, reversed. -/
def splitWSAux : List Char → List Char → List (List Char)
  | [], acc => if acc.isEmpty then [] else [acc.reverse]
  | c :: rest, acc =>
    if isWS c then
      if acc.isEmpty then splitWSAux rest [] else acc.reverse :: splitWSAux rest []
    else
      splitWSAux rest (c :: acc)

/-- Rust `str::split_whitespace` on a code-point list. -/
def splitWS (s : List Char) : List (List Char) := splitWSAux s []

/-- Split at every newline character; always returns one more part than the
number of newlines (the parts do not contain a newline). -/
def splitNL : List Char → List (List Char)
  | [] => [[]]
  | c :: rest =>
    if c = '\n' then [] :: splitNL rest
    else
      match splitNL rest with
      | [] => [[c]]
      | p :: ps => (c :: p) :: ps

/-- Join with newline separators: model of `Vec::join("\n")` on line lists. -/
def joinNL : List (List Char) → List Char
  | [] => []
  | [w] => w
  | w :: ws => w ++ '\n' :: joinNL ws

/-- Drop one trailing carriage return, applied to each line that a `'\n'`
terminated (the `"\r\n"` line ending of `str::lines`). -/
def stripTrailCR (l : List Char) : List Char :=
  if l.getLast? = some '\r' then l.dropLast else l

/-- Model of Rust `str::lines`: split on `'\n'`; a final line ending yields
no extra empty line; a `'\r'` directly before a `'\n'` is stripped from the
line it ends, while a `'\r'` at the very end of the input, not followed by
`'\n'`, stays on the final line (the documented `"baz\r"` case).  The
parts of `splitNL` other than the last are exactly the newline-terminated
lines. -/
def rustLines (s : List Char) : List (List Char) :=
  if s.isEmpty then []
  else if s.getLast? = some '\n' then ((splitNL s).dropLast).map stripTrailCR
  else ((splitNL s).dropLast).map stripTrailCR ++ [(splitNL s).getLast?.getD []]

/-- Does `needle` occur at the front of `hay`? -/
def startsWithL : List Char → List Char → Bool
  | [], _ => true
  | _ :: _, [] => false
  | a :: as, b :: bs => a = b && startsWithL as bs

/-- Model of `memchr::memmem::find`: position of the first occurrence of
`needle` in `hay`.  UTF-8 is self-synchronising, so byte-level search of one
valid string inside another finds exactly the code-point-level occurrences. -/
def findSub : List Char → List Char → Option Nat
  | hay, needle =>
    if startsWithL needle hay then some 0
    else
      match hay with
      | [] => none
      | _ :: rest => (findSub rest needle).map (· + 1)

/-- The similarity score `common_words as f64 / total_words as f64` of the
source, kept as the exact (unreduced) fraction it is the rounding of.  Every
observation the program makes of the score — ordering two scores and
comparing against `0.8` — is modelled on the exact rational value. -/
structure Sim where
  num : Nat
  den : Nat
deriving DecidableEq, Repr

/-- The rational value of a score.  `calculate_similarity` only builds
fractions with positive denominator; `max · 1` makes the value total without
changing it on those. -/
def Sim.val (s : Sim) : ℚ := (s.num : ℚ) / ((max s.den 1 : Nat) : ℚ)

/-- The effective denominator is positive. -/
theorem sim_den_cast_pos (s : Sim) : (0 : ℚ) < ((max s.den 1 : Nat) : ℚ) := by
  exact_mod_cast Nat.lt_of_lt_of_le Nat.zero_lt_one (Nat.le_max_right s.den 1)

/-- `calculate_similarity` of `duplication.rs`: the number of words of `s1`
also occurring among the words of `s2`, divided by the larger word count;
`0.0` when both word lists are empty. -/
def calculate_similarity (s1 s2 : List Char) : Sim :=
  let s1_words := splitWS s1
  let s2_words := splitWS s2
  let common_words := (s1_words.filter (fun w => s2_words.contains w)).length
  let total_words := max s1_words.length s2_words.length
  if total_words = 0 then ⟨0, 1⟩
  else ⟨common_words, total_words⟩

/-- The test `similarity > 0.8` of the source, by cross-multiplication
(`4/5 < n/d ↔ 4·d < 5·n` for the positive denominators built here). -/
def simGT08 (s : Sim) : Bool := 4 * max s.den 1 < 5 * s.num

/-- `DuplicateInfo` of `duplication.rs`: a detected span with its text, its
zero-based line range in the candidate (`end_line` exclusive) and the
similarity score. -/
structure DuplicateInfo where
  text : List Char
  start_line : Nat
  end_line : Nat
  similarity : Sim
deriving DecidableEq, Repr

/-- `ranges_overlap` of `duplication.rs` (closed-interval test on the
`[start, end]` pairs as the source stores them). -/
def ranges_overlap (start1 end1 start2 end2 : Nat) : Bool :=
  start1 ≤ end2 && start2 ≤ end1

/-- Comparator used by `deduplicate_results`'s `sort_by`: descending
similarity, again by cross-multiplication.  `partial_cmp … unwrap_or(Equal)`
needs no NaN case because the scores at hand are quotients of naturals with
positive denominator. -/
def simGE (a b : DuplicateInfo) : Prop :=
  b.similarity.num * max a.similarity.den 1 ≤ a.similarity.num * max b.similarity.den 1

instance : DecidableRel simGE := fun _ _ => inferInstanceAs (Decidable (_ ≤ _))

/-- `simGE` is exactly the descending order on rational score values. -/
theorem simGE_iff_val {a b : DuplicateInfo} :
    simGE a b ↔ b.similarity.val ≤ a.similarity.val := by
  unfold simGE Sim.val
  rw [div_le_div_iff₀ (sim_den_cast_pos _) (sim_den_cast_pos _)]
  exact_mod_cast Iff.rfl

/-- `simGT08` is exactly the test `0.8 < value`. -/
theorem simGT08_iff_val {s : Sim} : simGT08 s = true ↔ (4 : ℚ) / 5 < s.val := by
  unfold simGT08 Sim.val
  rw [div_lt_div_iff₀ (by norm_num) (sim_den_cast_pos _), mul_comm ((s.num : ℚ)) (5 : ℚ),
    decide_eq_true_eq]
  exact_mod_cast Iff.rfl

instance : IsTotal DuplicateInfo simGE :=
  ⟨fun a b => by
    rcases le_total (b.similarity.num * max a.similarity.den 1)
      (a.similarity.num * max b.similarity.den 1) with h | h
    · exact Or.inl h
    · exact Or.inr h⟩

instance : IsTrans DuplicateInfo simGE :=
  ⟨fun _ _ _ h h' =>
    simGE_iff_val.mpr (le_trans (simGE_iff_val.mp h') (simGE_iff_val.mp h))⟩

/-- The greedy sweep of `deduplicate_results`: keep the current element and
remove every later element overlapping it (the inner `while`-loop with
`Vec::remove` deletes exactly the later overlapping entries, preserving the
order of the rest, i.e. it is a `filter`); then advance to the next kept
element.  `fuel` bounds the number of outer-loop iterations; every iteration
consumes at least one list element, so the sweep is always called with
`fuel` at least the list length and the `0`-fuel branch is never reached. -/
def dedupSweep : Nat → List DuplicateInfo → List DuplicateInfo
  | _, [] => []
  | 0, l => l
  | fuel + 1, x :: xs =>
    x :: dedupSweep fuel
      (xs.filter (fun y => !ranges_overlap x.start_line x.end_line y.start_line y.end_line))

/-- `deduplicate_results` of `duplication.rs`: stable sort by descending
similarity (Rust `sort_by` is stable; a stable insertion sort is
extensionally the same reordering), then the greedy overlap sweep. -/
def deduplicate_results (l : List DuplicateInfo) : List DuplicateInfo :=
  dedupSweep l.length (List.insertionSort simGE l)

/-- One step of the sliding-window scan of `detect_duplicates`: the window of
`ws` lines starting at line `i`, kept iff its newline-joined text occurs in
`context` and scores above `0.8`. -/
def windowSpan (code_lines : List (List Char)) (context : List Char)
    (ws i : Nat) : Option DuplicateInfo :=
  let window_text := joinNL ((code_lines.drop i).take ws)
  if (findSub context window_text).isSome then
    let similarity := calculate_similarity window_text context
    if simGT08 similarity then
      some ⟨window_text, i, i + ws, similarity⟩
    else none
  else none

/-- Rust `(lo..=hi).rev()`. -/
def revRange (lo hi : Nat) : List Nat := (List.range' lo (hi + 1 - lo)).reverse

/-- All spans pushed by the nested loops of `detect_duplicates`, in push
order: window sizes from `min(code_lines.len(), 50)` down to `min_len`,
and for each size every window start position in increasing order
(`windows(ws).enumerate()` yields `len − ws + 1` windows). -/
def rawCandidates (code context : List Char) (min_len : Nat) : List DuplicateInfo :=
  let code_lines := rustLines code
  (revRange min_len (min code_lines.length 50)).flatMap (fun ws =>
    (List.range (code_lines.length + 1 - ws)).filterMap (windowSpan code_lines context ws))

/-- `detect_duplicates` of `duplication.rs`.  The `Result` wrapper of the
source is always `Ok`; `none` models the one way the body diverges, the
`slice::windows(0)` panic that is reached exactly when the caller passes
`Some(0)` as `min_length` (size `0` always lies in the reversed range). -/
def detect_duplicates (code context : List Char) (min_length : Option Nat) :
    Option (List DuplicateInfo) :=
  let min_len := min_length.getD 20
  if min_len = 0 then none
  else some (deduplicate_results (rawCandidates code context min_len))

/-! ### AST conversion (`ast_parser.rs`) -/

/-- Is `b` a UTF-8 continuation byte (`0x80 ≤ b ≤ 0xBF`)? -/
def isCont (b : Nat) : Bool := 0x80 ≤ b && b ≤ 0xBF

/-- Strict UTF-8 decoding of a byte list, exactly the validity rules of Rust
`str::from_utf8` (rejecting overlong forms, surrogates and values above
`0x10FFFF`); `none` on any invalid or truncated sequence. -/
def utf8DecodeL : List Nat → Option (List Char)
  | [] => some []
  | b :: rest =>
    if b < 0x80 then (utf8DecodeL rest).map (Char.ofNat b :: ·)
    else if 0xC2 ≤ b && b ≤ 0xDF then
      match rest with
      | b1 :: r =>
        if isCont b1 then
          (utf8DecodeL r).map (Char.ofNat ((b - 0xC0) * 0x40 + (b1 - 0x80)) :: ·)
        else none
      | [] => none
    else if 0xE0 ≤ b && b ≤ 0xEF then
      match rest with
      | b1 :: b2 :: r =>
        let okB1 : Bool :=
          if b = 0xE0 then 0xA0 ≤ b1 && b1 ≤ 0xBF
          else if b = 0xED then 0x80 ≤ b1 && b1 ≤ 0x9F
          else isCont b1
        if okB1 && isCont b2 then
          (utf8DecodeL r).map
            (Char.ofNat ((b - 0xE0) * 0x1000 + (b1 - 0x80) * 0x40 + (b2 - 0x80)) :: ·)
        else none
      | _ => none
    else if 0xF0 ≤ b && b ≤ 0xF4 then
      match rest with
      | b1 :: b2 :: b3 :: r =>
        let okB1 : Bool :=
          if b = 0xF0 then 0x90 ≤ b1 && b1 ≤ 0xBF
          else if b = 0xF4 then 0x80 ≤ b1 && b1 ≤ 0x8F
          else isCont b1
        if okB1 && isCont b2 && isCont b3 then
          (utf8DecodeL r).map
            (Char.ofNat
              ((b - 0xF0) * 0x40000 + (b1 - 0x80) * 0x1000 + (b2 - 0x80) * 0x40
                + (b3 - 0x80)) :: ·)
        else none
      | _ => none
    else none

/-- `str::from_utf8(…).map(str::to_string)`, as an `Option`. -/
def utf8Decode (bytes : List Nat) : Option String :=
  (utf8DecodeL bytes).map String.mk

/-- UTF-8 encoding of one scalar value. -/
def utf8EncodeChar (c : Char) : List Nat :=
  let n := c.toNat
  if n < 0x80 then [n]
  else if n < 0x800 then [0xC0 + n / 0x40, 0x80 + n % 0x40]
  else if n < 0x10000 then
    [0xE0 + n / 0x1000, 0x80 + n / 0x40 % 0x40, 0x80 + n % 0x40]
  else
    [0xF0 + n / 0x40000, 0x80 + n / 0x1000 % 0x40, 0x80 + n / 0x40 % 0x40,
      0x80 + n % 0x40]

/-- The byte view `source.as_bytes()` of a Rust `String`. -/
def utf8Encode (s : String) : List Nat := s.data.flatMap utf8EncodeChar

/-- A native `tree_sitter::Node` as the conversion observes it: kind, start
and end positions (row, column), the byte span into the source, and the
child nodes in document order (`child(i)` for `i < child_count()` is always
`Some`, so the source's `filter_map` is a plain `map`). -/
inductive RawNode where
  | node (kind : String) (startRow startCol endRow endCol : Nat)
      (startByte endByte : Nat) (children : List RawNode)

/-- Children accessor for `RawNode`. -/
def RawNode.children : RawNode → List RawNode
  | .node _ _ _ _ _ _ _ cs => cs

/-- `AstNode` of `ast_parser.rs` (recursive, hence an inductive type). -/
inductive AstNode where
  | mk (node_type : String) (start_line end_line start_column end_column : Nat)
      (text : Option String) (children : List AstNode)

/-- Field accessor: `text`. -/
def AstNode.text : AstNode → Option String
  | .mk _ _ _ _ _ t _ => t

/-- Field accessor: `children`. -/
def AstNode.children : AstNode → List AstNode
  | .mk _ _ _ _ _ _ cs => cs

/-- `node.utf8_text(source.as_bytes())` : the byte slice
`source[start_byte..end_byte]` decoded as UTF-8. -/
def utf8Text (source : List Nat) (startByte endByte : Nat) : Option String :=
  utf8Decode ((source.drop startByte).take (endByte - startByte))

mutual

/-- `node_to_ast` of `ast_parser.rs`: depth-first conversion; a node gets
`text` exactly when it has no children, and an invalid UTF-8 slice becomes
`""` (`unwrap_or("")`), never a failure. -/
def node_to_ast : RawNode → List Nat → AstNode
  | .node kind sr sc er ec sb eb cs, source =>
    .mk kind sr er sc ec
      (if cs.isEmpty then some ((utf8Text source sb eb).getD "") else none)
      (nodesToAst cs source)

/-- The recursive `map` over the child list. -/
def nodesToAst : List RawNode → List Nat → List AstNode
  | [], _ => []
  | c :: cs, source => node_to_ast c source :: nodesToAst cs source

end

mutual

/-- Does `p` hold at every node of the tree? -/
def nodeAll (p : AstNode → Bool) : AstNode → Bool
  | .mk k sl el sc ec t cs => p (.mk k sl el sc ec t cs) && nodesAll p cs

/-- `nodeAll` over a forest. -/
def nodesAll (p : AstNode → Bool) : List AstNode → Bool
  | [] => true
  | a :: as => nodeAll p a && nodesAll p as

end

/-! ### Grammar registry and parser pool (`ast_parser.rs`)

The process-wide mutable state is the pair of `static mut` maps `PARSERS`
and `LANGUAGES` (each `Option<HashMap<…>>`, `None` until `init_cache`).
The model threads an explicit `GlobalState` through every operation.  Maps
are association lists; keys are inserted only when absent, so the list
length is the `HashMap::len` the source reports.  A `Parser` value is
identified by the allocation number `nextHandle`: two results of
`get_parser` denote the same mutable parser object exactly when they carry
the same number (the source hands out `&'static mut` aliases to the single
cached object per language).  `Parser::set_language` is modelled as
succeeding, which it does for the statically linked grammars at hand. -/

/-- The closed set of grammars of `get_language`'s `match`. -/
inductive Lang where
  | typescript | javascript | python | rust | go | java | cpp | csharp | ruby | php
deriving DecidableEq, Repr

/-- The `match language_id` arms of `get_language` (both "react" dialects
share their base grammar, and `"c"` shares `cpp`); `none` is the
`Unsupported language` arm. -/
def loadLang (id : String) : Option Lang :=
  if id = "typescript" ∨ id = "typescriptreact" then some .typescript
  else if id = "javascript" ∨ id = "javascriptreact" then some .javascript
  else if id = "python" then some .python
  else if id = "rust" then some .rust
  else if id = "go" then some .go
  else if id = "java" then some .java
  else if id = "cpp" ∨ id = "c" then some .cpp
  else if id = "csharp" then some .csharp
  else if id = "ruby" then some .ruby
  else if id = "php" then some .php
  else none

/-- The language identifiers accepted by `get_language`. -/
def supportedIds : List String :=
  ["typescript", "typescriptreact", "javascript", "javascriptreact", "python",
    "rust", "go", "java", "cpp", "c", "csharp", "ruby", "php"]

/-- The two `static mut` caches plus the allocation counter that names
parser objects. -/
structure GlobalState where
  parsers : Option (List (String × Nat))
  languages : Option (List (String × Lang))
  nextHandle : Nat
deriving DecidableEq, Repr

/-- The process start state (`PARSERS = None`, `LANGUAGES = None`). -/
def initialState : GlobalState := ⟨none, none, 0⟩

/-- `init_cache`: replace `None` by an empty map, leave present maps. -/
def initCache (s : GlobalState) : GlobalState :=
  { s with
    parsers := some (s.parsers.getD [])
    languages := some (s.languages.getD []) }

/-- `get_language` of `ast_parser.rs`. -/
def getLanguage (s : GlobalState) (id : String) : Except String Lang × GlobalState :=
  let s1 := initCache s
  match s1.languages with
  | none => (.error "Language cache not initialized", s1)
  | some langs =>
    match langs.lookup id with
    | some lang => (.ok lang, s1)
    | none =>
      match loadLang id with
      | some lang => (.ok lang, { s1 with languages := some (langs ++ [(id, lang)]) })
      | none => (.error ("Unsupported language: " ++ id), s1)

/-- `get_parser` of `ast_parser.rs`: create-on-miss, then return (a mutable
reference to) the one cached parser of that language.  The returned `Nat`
is the identity of that parser object. -/
def getParser (s : GlobalState) (id : String) : Except String Nat × GlobalState :=
  let s1 := initCache s
  match s1.parsers with
  | none => (.error "Parser cache not initialized", s1)
  | some ps =>
    if (ps.lookup id).isSome then (.ok ((ps.lookup id).getD 0), s1)
    else
      match getLanguage s1 id with
      | (.error e, s2) => (.error e, s2)
      | (.ok _lang, s2) =>
        let ps2 := s2.parsers.getD [] ++ [(id, s2.nextHandle)]
        let s3 := { s2 with parsers := some ps2, nextHandle := s2.nextHandle + 1 }
        (.ok ((ps2.lookup id).getD 0), s3)

/-- `parse_ast` of `ast_parser.rs`.  The native `parser.parse(&code, None)`
call is the oracle (its `None` is the `Failed to parse code` error);
`serde_json::to_string` never fails on `AstNode` and is modelled by
returning the converted tree itself. -/
def parseAst (oracle : String → String → Option RawNode) (s : GlobalState)
    (code id : String) : Except String (Option AstNode) × GlobalState :=
  match getParser s id with
  | (.error e, s1) => (.error e, s1)
  | (.ok _parserHandle, s1) =>
    match oracle code id with
    | none => (.error "Failed to parse code", s1)
    | some root => (.ok (some (node_to_ast root (utf8Encode code))), s1)

/-- `Result::unwrap_or(None)` as the batch loop applies it to the value of
`parse_ast`. -/
def unwrapOrNone : Except String (Option AstNode) → Option AstNode
  | .ok v => v
  | .error _ => none

/-- The value a lone `parse_ast` call computes from a fresh process, with
the `Result` collapsed by `unwrap_or(None)` as in the batch loop.  The
value of `parse_ast` does not depend on the cache state (the caches only
memoize), so this is "the result of its own independent parse". -/
def parseAstStandalone (oracle : String → String → Option RawNode)
    (code id : String) : Option AstNode :=
  unwrapOrNone (parseAst oracle initialState code id).1

/-- One item of the batch loop: `parse_ast(code, lang).unwrap_or(None)`
appended to the collected results, the cache state threaded through. -/
def batchStep (oracle : String → String → Option RawNode)
    (acc : List (Option AstNode) × GlobalState) (f : String × String) :
    List (Option AstNode) × GlobalState :=
  (acc.1 ++ [unwrapOrNone (parseAst oracle acc.2 f.1 f.2).1],
    (parseAst oracle acc.2 f.1 f.2).2)

/-- `parse_files_parallel` of `ast_parser.rs`, under a RACE-FREE
idealisation: the fold runs the items one after another, each `parse_ast`
step atomic, results collected in input order.  The real function instead
drives the items concurrently on rayon workers, which access the
unsynchronized `static mut` maps and share one aliased `&mut Parser` per
language (see `getParser`); for batches holding two items of the same
language that concurrent execution is a data race, so this sequential
model describes the intended semantics, not a guarantee the racy program
provides. -/
def parseFilesParallel (oracle : String → String → Option RawNode)
    (s : GlobalState) (files : List (String × String)) :
    Except String (List (Option AstNode)) × GlobalState :=
  let r := files.foldl (batchStep oracle) (([] : List (Option AstNode)), s)
  (.ok r.1, r.2)

/-- `clear_parser_cache` of `ast_parser.rs`: both maps become empty. -/
def clearParserCache (s : GlobalState) : GlobalState :=
  { s with parsers := some [], languages := some [] }

/-- `CacheStats` of `ast_parser.rs`. -/
structure CacheStats where
  parsers : Nat
  languages : Nat
deriving DecidableEq, Repr

/-- `get_cache_stats` of `ast_parser.rs` (`init_cache` then the two map
lengths; the `None` arms yield `0`, as does an empty map). -/
def getCacheStats (s : GlobalState) : CacheStats × GlobalState :=
  let s1 := initCache s
  (⟨(s1.parsers.getD []).length, (s1.languages.getD []).length⟩, s1)

/-- States reachable by the program: every cached parser belongs to a
loadable language and every cached language is the one `loadLang` yields
for its key.  (`initialState` satisfies this and every operation preserves
it.) -/
def WellFormed (s : GlobalState) : Prop :=
  (∀ p ∈ s.parsers.getD [], (loadLang p.1).isSome = true) ∧
    (∀ q ∈ s.languages.getD [], loadLang q.1 = some q.2)

instance : DecidablePred WellFormed := fun s => by
  unfold WellFormed; infer_instance

/-! ### Helper lemmas: text utilities -/

theorem startsWithL_iff (needle hay : List Char) :
    startsWithL needle hay = true ↔ ∃ post, hay = needle ++ post := by
  induction needle generalizing hay with
  | nil => simp [startsWithL]
  | cons a as ih =>
    cases hay with
    | nil => simp [startsWithL]
    | cons b bs =>
      simp only [startsWithL, Bool.and_eq_true, decide_eq_true_eq, ih, List.cons_append]
      constructor
      · rintro ⟨rfl, post, rfl⟩
        exact ⟨post, rfl⟩
      · rintro ⟨post, h⟩
        obtain ⟨h1, h2⟩ := List.cons.inj h
        exact ⟨h1.symm, post, h2⟩

theorem findSub_isSome_iff (hay needle : List Char) :
    (findSub hay needle).isSome = true ↔ ∃ pre post, hay = pre ++ needle ++ post := by
  induction hay with
  | nil =>
    rw [findSub]
    by_cases h : startsWithL needle [] = true
    · rw [if_pos h]
      obtain ⟨post, hp⟩ := (startsWithL_iff _ _).mp h
      exact iff_of_true rfl ⟨[], post, hp⟩
    · rw [if_neg h]
      constructor
      · intro hh
        exact absurd hh (by simp)
      · rintro ⟨pre, post, hp⟩
        rcases List.append_eq_nil.mp ((List.append_assoc _ _ _ ▸ hp).symm) with ⟨-, h2⟩
        rcases List.append_eq_nil.mp h2 with ⟨hn, hpo⟩
        exact absurd ((startsWithL_iff _ _).mpr ⟨post, by simp [hn, hpo]⟩) h
  | cons c rest ih =>
    rw [findSub]
    by_cases h : startsWithL needle (c :: rest) = true
    · rw [if_pos h]
      obtain ⟨post, hp⟩ := (startsWithL_iff _ _).mp h
      exact iff_of_true rfl ⟨[], post, by simpa using hp⟩
    · rw [if_neg h]
      rw [show ∀ o : Option Nat, (Option.map (fun x => x + 1) o).isSome = o.isSome by
        intro o; cases o <;> rfl]
      rw [ih]
      constructor
      · rintro ⟨pre, post, rfl⟩
        exact ⟨c :: pre, post, rfl⟩
      · rintro ⟨pre, post, hp⟩
        cases pre with
        | nil =>
          exact absurd ((startsWithL_iff _ _).mpr ⟨post, by simpa using hp⟩) h
        | cons p ps =>
          obtain ⟨-, h2⟩ := List.cons.inj hp
          exact ⟨ps, post, h2⟩

theorem splitNL_ne_nil (s : List Char) : splitNL s ≠ [] := by
  cases s with
  | nil => simp [splitNL]
  | cons c rest =>
    rw [splitNL]
    split
    · simp
    · split <;> simp

theorem joinNL_cons_of_ne_nil {ws : List (List Char)} (h : ws ≠ []) (w : List Char) :
    joinNL (w :: ws) = w ++ '\n' :: joinNL ws := by
  cases ws with
  | nil => exact absurd rfl h
  | cons v vs => rfl

theorem joinNL_splitNL (s : List Char) : joinNL (splitNL s) = s := by
  induction s with
  | nil => simp [splitNL, joinNL]
  | cons c rest ih =>
    rw [splitNL]
    split
    · rename_i hc
      rw [joinNL_cons_of_ne_nil (splitNL_ne_nil rest)] at *
      simp [hc, ih]
    · rename_i hc
      cases hsp : splitNL rest with
      | nil => exact absurd hsp (splitNL_ne_nil rest)
      | cons p ps =>
        rw [hsp] at ih
        cases ps with
        | nil => simpa [joinNL] using ih
        | cons q qs =>
          rw [joinNL_cons_of_ne_nil (by simp)] at ih
          rw [joinNL_cons_of_ne_nil (by simp)]
          simpa using ih

theorem splitNL_append_newline (xs : List Char) :
    splitNL (xs ++ ['\n']) = splitNL xs ++ [[]] := by
  induction xs with
  | nil => simp [splitNL]
  | cons c rest ih =>
    rw [List.cons_append, splitNL, splitNL, ih]
    by_cases hc : c = '\n'
    · rw [if_pos hc, if_pos hc]
      rfl
    · rw [if_neg hc, if_neg hc]
      cases hsp : splitNL rest with
      | nil => exact absurd hsp (splitNL_ne_nil rest)
      | cons p ps => rfl

theorem mem_of_mem_splitNL {s p : List Char} {c : Char}
    (hp : p ∈ splitNL s) (hc : c ∈ p) : c ∈ s := by
  induction s generalizing p with
  | nil =>
    simp only [splitNL, List.mem_singleton] at hp
    subst hp
    exact absurd hc (List.not_mem_nil c)
  | cons a rest ih =>
    rw [splitNL] at hp
    by_cases ha : a = '\n'
    · rw [if_pos ha] at hp
      rcases List.mem_cons.mp hp with h | h
      · subst h
        exact absurd hc (List.not_mem_nil c)
      · exact List.mem_cons_of_mem a (ih h hc)
    · rw [if_neg ha] at hp
      cases hsp : splitNL rest with
      | nil => exact absurd hsp (splitNL_ne_nil rest)
      | cons q qs =>
        rw [hsp] at hp
        rcases List.mem_cons.mp hp with h | h
        · subst h
          rcases List.mem_cons.mp hc with h' | h'
          · exact h' ▸ List.mem_cons_self a rest
          · exact List.mem_cons_of_mem a (ih (hsp ▸ List.mem_cons_self q qs) h')
        · exact List.mem_cons_of_mem a (ih (hsp ▸ List.mem_cons_of_mem q h) hc)

theorem mem_of_getLast?_eq {l : List Char} {a : Char} (h : l.getLast? = some a) :
    a ∈ l := by
  cases l with
  | nil => simp at h
  | cons x xs =>
    have hne : x :: xs ≠ [] := by simp
    rw [List.getLast?_eq_getLast _ hne] at h
    exact (Option.some.inj h) ▸ List.getLast_mem hne

theorem stripTrailCR_of_not_mem {p : List Char} (h : '\r' ∉ p) :
    stripTrailCR p = p := by
  rw [stripTrailCR, if_neg]
  intro hlast
  exact h (mem_of_getLast?_eq hlast)

theorem joinNL_concat_nil {ps : List (List Char)} (h : ps ≠ []) :
    joinNL (ps ++ [[]]) = joinNL ps ++ ['\n'] := by
  induction ps with
  | nil => exact absurd rfl h
  | cons p ps ih =>
    cases ps with
    | nil => simp [joinNL]
    | cons q qs =>
      rw [List.cons_append, joinNL_cons_of_ne_nil (by simp),
        joinNL_cons_of_ne_nil (by simp), ih (by simp)]
      simp

/-- Reconstruction of a carriage-return-free text from its `rustLines`:
the join equals the text up to one trailing newline. -/
theorem joinNL_rustLines {s : List Char} (hne : s ≠ []) (hcr : '\r' ∉ s) :
    joinNL (rustLines s) ++ (if s.getLast? = some '\n' then ['\n'] else []) = s := by
  have hmap : ∀ t : List Char, '\r' ∉ t → (splitNL t).map stripTrailCR = splitNL t := by
    intro t ht
    calc (splitNL t).map stripTrailCR
        = (splitNL t).map id :=
          List.map_congr_left
            (fun p hp => stripTrailCR_of_not_mem
              (fun hr => ht (mem_of_mem_splitNL hp hr)))
      _ = splitNL t := List.map_id _
  have hmapd : ∀ t : List Char, '\r' ∉ t →
      ((splitNL t).dropLast).map stripTrailCR = (splitNL t).dropLast := by
    intro t ht
    calc ((splitNL t).dropLast).map stripTrailCR
        = ((splitNL t).dropLast).map id :=
          List.map_congr_left
            (fun p hp => stripTrailCR_of_not_mem
              (fun hr => ht (mem_of_mem_splitNL
                ((List.dropLast_sublist _).mem hp) hr)))
      _ = (splitNL t).dropLast := List.map_id _
  rw [rustLines, if_neg (by simpa using hne)]
  by_cases hlast : s.getLast? = some '\n'
  · have hs : s.dropLast ++ ['\n'] = s := by
      have h1 := List.dropLast_append_getLast hne
      have h2 : s.getLast hne = '\n' := by
        have h3 := List.getLast?_eq_getLast s hne
        rw [hlast] at h3
        exact (Option.some.inj h3).symm
      rw [h2] at h1
      exact h1
    have hcr' : '\r' ∉ s.dropLast := fun hr => hcr (hs ▸ List.mem_append_left _ hr)
    rw [if_pos hlast, if_pos hlast]
    have h2 : splitNL s = splitNL s.dropLast ++ [[]] := by
      conv_lhs => rw [← hs]
      exact splitNL_append_newline _
    rw [h2, List.dropLast_concat, hmap _ hcr', joinNL_splitNL]
    exact hs
  · rw [if_neg hlast, if_neg hlast, List.append_nil, hmapd s hcr]
    have hne' : splitNL s ≠ [] := splitNL_ne_nil s
    have hlast2 : (splitNL s).getLast?.getD [] = (splitNL s).getLast hne' := by
      rw [List.getLast?_eq_getLast _ hne']
      rfl
    rw [hlast2, List.dropLast_append_getLast hne', joinNL_splitNL]

theorem splitWSAux_append_ws {c : Char} (hc : isWS c = true) :
    ∀ (xs : List Char) (acc : List Char),
      splitWSAux (xs ++ [c]) acc = splitWSAux xs acc := by
  intro xs
  induction xs with
  | nil =>
    intro acc
    simp [splitWSAux, hc]
  | cons a t ih =>
    intro acc
    by_cases ha : isWS a = true
    · simp [splitWSAux, ha, ih]
    · simp [splitWSAux, ha, ih]

theorem splitWS_append_ws {c : Char} (hc : isWS c = true) (xs : List Char) :
    splitWS (xs ++ [c]) = splitWS xs :=
  splitWSAux_append_ws hc xs []

/-- Similarity scores always have a positive denominator. -/
theorem calculate_similarity_den_pos (s1 s2 : List Char) :
    1 ≤ (calculate_similarity s1 s2).den := by
  rw [calculate_similarity]
  split
  · exact le_refl 1
  · rename_i h
    simpa using Nat.pos_of_ne_zero h

/-- Similarity scores never exceed `1`. -/
theorem calculate_similarity_val_le_one (s1 s2 : List Char) :
    (calculate_similarity s1 s2).val ≤ 1 := by
  rw [calculate_similarity]
  split
  · simp [Sim.val]
  · rename_i h
    rw [Sim.val]
    rw [div_le_one (sim_den_cast_pos _)]
    have hle : ((splitWS s1).filter (fun w => (splitWS s2).contains w)).length ≤
        max (max (splitWS s1).length (splitWS s2).length) 1 :=
      le_trans (List.length_filter_le _ _)
        (le_trans (le_max_left _ _) (Nat.le_max_left _ 1))
    exact_mod_cast hle

/-- Similarity scores are never negative. -/
theorem calculate_similarity_val_nonneg (s1 s2 : List Char) :
    0 ≤ (calculate_similarity s1 s2).val := by
  rw [Sim.val]
  positivity

/-- On two texts with the same non-empty word list the similarity is the
fraction `L / L`, of value `1`. -/
theorem calculate_similarity_self {wt s : List Char}
    (h : splitWS wt = splitWS s) (hne : splitWS s ≠ []) :
    calculate_similarity wt s =
      ⟨(splitWS s).length, (splitWS s).length⟩ := by
  rw [calculate_similarity, h]
  have hfilter : (splitWS s).filter (fun w => (splitWS s).contains w) = splitWS s :=
    List.filter_eq_self.mpr (fun a ha => List.elem_iff.mpr ha)
  have hlen : (splitWS s).length ≠ 0 := fun h0 => hne (List.length_eq_zero.mp h0)
  rw [if_neg (by simpa using hlen)]
  simp [hfilter]

/-- `Sim.val` of the fraction `L / L` is `1` when `L ≥ 1`. -/
theorem sim_val_self {L : Nat} (h : 1 ≤ L) : Sim.val ⟨L, L⟩ = 1 := by
  rw [Sim.val]
  show (L : ℚ) / ((max L 1 : Nat) : ℚ) = 1
  rw [Nat.max_eq_left h]
  exact div_self (Nat.cast_ne_zero.mpr (by omega))

/-! ### Helper lemmas: overlap sweep and sorting -/

theorem dedupSweep_sublist : ∀ (f : Nat) (l : List DuplicateInfo),
    List.Sublist (dedupSweep f l) l := by
  intro f
  induction f with
  | zero =>
    intro l
    cases l with
    | nil => exact List.Sublist.refl _
    | cons x xs => exact List.Sublist.refl _
  | succ f ih =>
    intro l
    cases l with
    | nil => exact List.Sublist.refl _
    | cons x xs =>
      rw [dedupSweep]
      exact List.Sublist.cons₂ x (List.Sublist.trans (ih _) (List.filter_sublist xs))

theorem dedupSweep_pairwise : ∀ (f : Nat) (l : List DuplicateInfo),
    l.length ≤ f →
    (dedupSweep f l).Pairwise
      (fun a b => ranges_overlap a.start_line a.end_line b.start_line b.end_line = false) := by
  intro f
  induction f with
  | zero =>
    intro l hl
    rw [Nat.le_zero, List.length_eq_zero] at hl
    subst hl
    exact List.Pairwise.nil
  | succ f ih =>
    intro l hl
    cases l with
    | nil => exact List.Pairwise.nil
    | cons x xs =>
      rw [dedupSweep]
      refine List.Pairwise.cons ?_ (ih _ ?_)
      · intro y hy
        have hy' := (dedupSweep_sublist f _).mem hy
        have := (List.mem_filter.mp hy').2
        simpa using this
      · calc (xs.filter _).length ≤ xs.length := List.length_filter_le _ _
          _ ≤ f := by simpa using hl

/-- Keeping the first element of the sorted list: an element related to
everything else is placed first by `insertionSort` (stability: it is
inserted before later equals). -/
theorem insertionSort_cons_of_forall {x : DuplicateInfo} {l : List DuplicateInfo}
    (hx : ∀ y ∈ l, simGE x y) :
    List.insertionSort simGE (x :: l) = x :: List.insertionSort simGE l := by
  rw [List.insertionSort]
  cases hs : List.insertionSort simGE l with
  | nil => rfl
  | cons b t =>
    rw [List.orderedInsert, if_pos]
    apply hx
    exact (List.perm_insertionSort simGE l).mem_iff.mp (hs ▸ List.mem_cons_self b t)

/-- The sorted list is pairwise `simGE` downward. -/
theorem pairwise_insertionSort (l : List DuplicateInfo) :
    (List.insertionSort simGE l).Pairwise simGE :=
  List.sorted_insertionSort simGE l

/-! ### Helper lemmas: the sliding-window scan -/

theorem windowSpan_eq_some_iff {code_lines : List (List Char)} {context : List Char}
    {ws i : Nat} {d : DuplicateInfo} :
    windowSpan code_lines context ws i = some d ↔
      (findSub context (joinNL ((code_lines.drop i).take ws))).isSome = true ∧
        simGT08 (calculate_similarity (joinNL ((code_lines.drop i).take ws)) context)
          = true ∧
        d = ⟨joinNL ((code_lines.drop i).take ws), i, i + ws,
          calculate_similarity (joinNL ((code_lines.drop i).take ws)) context⟩ := by
  simp only [windowSpan]
  split_ifs with h1 h2
  · simp [h1, h2, eq_comm]
  · simp [h1, h2]
  · simp [h1]

theorem mem_rawCandidates_iff {code context : List Char} {m : Nat}
    {d : DuplicateInfo} :
    d ∈ rawCandidates code context m ↔
      ∃ ws i, m ≤ ws ∧ ws ≤ min (rustLines code).length 50 ∧
        i < (rustLines code).length + 1 - ws ∧
        windowSpan (rustLines code) context ws i = some d := by
  rw [rawCandidates]
  simp only [List.mem_flatMap, List.mem_filterMap, List.mem_range, revRange,
    List.mem_reverse, List.mem_range'_1]
  constructor
  · rintro ⟨ws, ⟨hlo, hhi⟩, i, hi, hspan⟩
    exact ⟨ws, i, hlo, by omega, hi, hspan⟩
  · rintro ⟨ws, i, h1, h2, h3, hspan⟩
    exact ⟨ws, ⟨h1, by omega⟩, i, h3, hspan⟩

/-- Every pushed span starts at a line of the candidate and scores at
most `1`. -/
theorem rawCandidates_bounds {code context : List Char} {m : Nat}
    {d : DuplicateInfo} (hd : d ∈ rawCandidates code context m) :
    d.start_line ≤ (rustLines code).length ∧ d.similarity.val ≤ 1 := by
  obtain ⟨ws, i, hm, hws, hi, hspan⟩ := mem_rawCandidates_iff.mp hd
  obtain ⟨-, -, rfl⟩ := windowSpan_eq_some_iff.mp hspan
  constructor
  · show i ≤ _
    omega
  · exact calculate_similarity_val_le_one _ _

/-! ### Claims about the duplicate detector -/

/-- The similarity formula as the specification words it: count of words of
the window that appear anywhere in the reference's word sequence, divided by
the maximum of the two word-sequence lengths.  (Second definition, written
from the spec, to be compared with `calculate_similarity` from the source.) -/
def similarityAsSpecified (s1 s2 : List Char) : ℚ :=
  (((splitWS s1).filter (fun w => w ∈ splitWS s2)).length : ℚ) /
    ((max (splitWS s1).length (splitWS s2).length : Nat) : ℚ)

theorem contains_eq_decide_mem (l : List (List Char)) (w : List Char) :
    l.contains w = decide (w ∈ l) := by
  by_cases h : w ∈ l <;> simp [h, List.elem_iff]

/-- C6: the similarity score of a window against the reference equals the
count of words in the window's whitespace-split word sequence that also
appear anywhere in the reference's whitespace-split word sequence, divided
by the maximum of the two sequences' lengths, and the value always lies in
`[0, 1]`. -/
theorem claim_C6 (s1 s2 : List Char) :
    (calculate_similarity s1 s2).val = similarityAsSpecified s1 s2 ∧
      0 ≤ (calculate_similarity s1 s2).val ∧
      (calculate_similarity s1 s2).val ≤ 1 := by
  refine ⟨?_, calculate_similarity_val_nonneg s1 s2, calculate_similarity_val_le_one s1 s2⟩
  rw [similarityAsSpecified]
  have hfilter : (splitWS s1).filter (fun w => decide (w ∈ splitWS s2)) =
      (splitWS s1).filter (fun w => (splitWS s2).contains w) :=
    List.filter_congr (fun a _ => (contains_eq_decide_mem _ a).symm)
  rw [hfilter, calculate_similarity]
  split
  · rename_i h
    have h1 : (splitWS s1).length = 0 := by omega
    have h2 : (splitWS s1) = [] := List.length_eq_zero.mp h1
    simp [Sim.val, h2, h]
  · rename_i h
    rw [Sim.val]
    show _ = ((((splitWS s1).filter _).length : ℚ)) / _
    have : max (max (splitWS s1).length (splitWS s2).length) 1 =
        max (splitWS s1).length (splitWS s2).length :=
      Nat.max_eq_left (Nat.pos_of_ne_zero h)
    rw [this]

/-- C4: for every candidate, reference and `min_length`, the returned list
is pairwise non-overlapping (no two spans satisfy the symmetric
`ranges_overlap` test, so the property holds for all `i ≠ j`) and is sorted
by descending similarity value. -/
theorem claim_C4 (code context : List Char) (min_length : Option Nat)
    (out : List DuplicateInfo)
    (h : detect_duplicates code context min_length = some out) :
    out.Pairwise (fun a b =>
      ranges_overlap a.start_line a.end_line b.start_line b.end_line = false ∧
        b.similarity.val ≤ a.similarity.val) := by
  have hout : out =
      deduplicate_results (rawCandidates code context (min_length.getD 20)) := by
    simp only [detect_duplicates] at h
    split_ifs at h with h0
    exact (Option.some.inj h).symm
  subst hout
  rw [deduplicate_results, List.pairwise_and_iff]
  constructor
  · apply dedupSweep_pairwise
    exact le_of_eq (List.Perm.length_eq (List.perm_insertionSort simGE _))
  · have hs := pairwise_insertionSort (rawCandidates code context (min_length.getD 20))
    have hsub := dedupSweep_sublist
      (rawCandidates code context (min_length.getD 20)).length
      (List.insertionSort simGE (rawCandidates code context (min_length.getD 20)))
    exact (List.Pairwise.sublist hsub hs).imp (fun hab => simGE_iff_val.mp hab)

/-- Witness for C4 at a concrete input: the two-line candidate `"p q\np q"`
against itself with `min_length = 1` yields the single full span, on which
both properties hold. -/
theorem claim_C4_witness :
    ([⟨"p q\np q".toList, 0, 2, ⟨4, 4⟩⟩] : List DuplicateInfo).Pairwise
      (fun a b =>
        ranges_overlap a.start_line a.end_line b.start_line b.end_line = false ∧
          b.similarity.val ≤ a.similarity.val) :=
  claim_C4 "p q\np q".toList "p q\np q".toList (some 1) _ (by decide)

/-- C5: `detect_duplicates` examines window sizes from
`min(50, total_lines)` down to `min_length` inclusive in descending order,
`min_length` defaults to `20`, and a window is pushed as a candidate
duplicate exactly when its newline-joined text occurs verbatim as a
substring of the reference and its similarity value exceeds `0.8`
(`min_length = 0` makes `slice::windows(0)` panic, modelled as `none`). -/
theorem claim_C5 (code context : List Char) (m : Nat) :
    (detect_duplicates code context none = detect_duplicates code context (some 20)) ∧
      (detect_duplicates code context (some m) =
        if m = 0 then none
        else some (deduplicate_results (rawCandidates code context m))) ∧
      (revRange m (min (rustLines code).length 50)).Pairwise (fun a b => b < a) ∧
      (∀ ws, ws ∈ revRange m (min (rustLines code).length 50) ↔
        m ≤ ws ∧ ws ≤ min (rustLines code).length 50) ∧
      (∀ d, d ∈ rawCandidates code context m ↔
        ∃ ws i, m ≤ ws ∧ ws ≤ min (rustLines code).length 50 ∧
          i + ws ≤ (rustLines code).length ∧
          (∃ pre post,
            context = pre ++ joinNL (((rustLines code).drop i).take ws) ++ post) ∧
          (4 : ℚ) / 5 <
            (calculate_similarity (joinNL (((rustLines code).drop i).take ws))
              context).val ∧
          d = ⟨joinNL (((rustLines code).drop i).take ws), i, i + ws,
            calculate_similarity (joinNL (((rustLines code).drop i).take ws))
              context⟩) := by
  refine ⟨rfl, rfl, ?_, ?_, ?_⟩
  · rw [revRange, List.pairwise_reverse]
    exact List.pairwise_lt_range' _ _
  · intro ws
    rw [revRange, List.mem_reverse, List.mem_range'_1]
    omega
  · intro d
    rw [mem_rawCandidates_iff]
    constructor
    · rintro ⟨ws, i, h1, h2, h3, hspan⟩
      obtain ⟨hfind, hsim, rfl⟩ := windowSpan_eq_some_iff.mp hspan
      exact ⟨ws, i, h1, h2, by omega, (findSub_isSome_iff _ _).mp hfind,
        simGT08_iff_val.mp hsim, rfl⟩
    · rintro ⟨ws, i, h1, h2, h3, hfind, hsim, rfl⟩
      exact ⟨ws, i, h1, h2, by omega,
        windowSpan_eq_some_iff.mpr
          ⟨(findSub_isSome_iff _ _).mpr hfind, simGT08_iff_val.mpr hsim, rfl⟩⟩

/-- C10: every returned span satisfies `end_line = start_line + k` where `k`
is the number of candidate lines forming the span's text (whose
newline-join the text is), i.e. `end_line` is one past the zero-based index
of the window's last line; a span covering an entire `N`-line candidate
therefore has `start_line = 0` and `end_line = N`. -/
theorem claim_C10 (code context : List Char) (min_length : Option Nat)
    (out : List DuplicateInfo)
    (h : detect_duplicates code context min_length = some out) :
    ∀ d ∈ out, ∃ k i, 1 ≤ k ∧ d.start_line = i ∧ d.end_line = i + k ∧
      d.text = joinNL (((rustLines code).drop i).take k) ∧
      (((rustLines code).drop i).take k).length = k := by
  have h0 : ¬min_length.getD 20 = 0 := by
    simp only [detect_duplicates] at h
    intro h0
    rw [if_pos h0] at h
    cases h
  have hout : out =
      deduplicate_results (rawCandidates code context (min_length.getD 20)) := by
    simp only [detect_duplicates] at h
    rw [if_neg h0] at h
    exact (Option.some.inj h).symm
  subst hout
  intro d hd
  have hraw : d ∈ rawCandidates code context (min_length.getD 20) := by
    rw [deduplicate_results] at hd
    have h1 := (dedupSweep_sublist _ _).mem hd
    exact (List.perm_insertionSort simGE _).mem_iff.mp h1
  obtain ⟨ws, i, h1, h2, h3, hspan⟩ := mem_rawCandidates_iff.mp hraw
  obtain ⟨-, -, rfl⟩ := windowSpan_eq_some_iff.mp hspan
  refine ⟨ws, i, by omega, rfl, rfl, rfl, ?_⟩
  rw [List.length_take, List.length_drop]
  omega

/-- Witness for C10 at a concrete input: on the candidate `"r\ns"` against
itself with `min_length = 1` the single returned span is the full window,
with `end_line = 0 + 2`. -/
theorem claim_C10_witness :
    ∃ k i, 1 ≤ k ∧
      (⟨"r\ns".toList, 0, 2, ⟨2, 2⟩⟩ : DuplicateInfo).start_line = i ∧
      (⟨"r\ns".toList, 0, 2, ⟨2, 2⟩⟩ : DuplicateInfo).end_line = i + k ∧
      (⟨"r\ns".toList, 0, 2, ⟨2, 2⟩⟩ : DuplicateInfo).text =
        joinNL (((rustLines "r\ns".toList).drop i).take k) ∧
      (((rustLines "r\ns".toList).drop i).take k).length = k :=
  claim_C10 "r\ns".toList "r\ns".toList (some 1)
    [⟨"r\ns".toList, 0, 2, ⟨2, 2⟩⟩] (by decide)
    ⟨"r\ns".toList, 0, 2, ⟨2, 2⟩⟩ (by decide)

theorem revRange_eq_cons {m n : Nat} (h : m ≤ n) :
    revRange m n = n :: (List.range' m (n - m)).reverse := by
  rw [revRange]
  have h1 : n + 1 - m = (n - m) + 1 := by omega
  rw [h1, List.range'_1_concat]
  have h2 : m + (n - m) = n := by omega
  rw [h2, List.reverse_append]
  rfl

/-- Counterexample to C3 as stated: the candidate `" \n "` is non-empty and
has two lines, `min_length = 1` is below that, the reference is the
candidate itself, yet `detect_duplicates` returns no spans (every window is
found verbatim in the reference, but a whitespace-only window has an empty
word list and scores `0.0 < 0.8`). -/
theorem claim_C3_counterexample :
    " \n ".toList ≠ [] ∧ (rustLines " \n ".toList).length = 2 ∧
      detect_duplicates " \n ".toList " \n ".toList (some 1) = some [] := by
  refine ⟨by decide, by decide, by decide⟩

/-- C3 (amended): for every candidate whose whitespace-split word list is
non-empty, that contains no carriage return and has at most `50` lines,
calling `detect_duplicates` with the reference equal to the candidate and
`1 ≤ min_length < total_lines` returns exactly one span, covering the
maximal matched window (lines `0` to `total_lines`, text the join of all
lines), and its similarity value is exactly `1`. -/
theorem claim_C3_amended (c : List Char) (m : Nat)
    (hcr : '\r' ∉ c) (hwords : splitWS c ≠ []) (hm : 1 ≤ m)
    (hmn : m < (rustLines c).length) (h50 : (rustLines c).length ≤ 50) :
    detect_duplicates c c (some m) =
      some [⟨joinNL (rustLines c), 0, (rustLines c).length,
        calculate_similarity (joinNL (rustLines c)) c⟩] ∧
      (calculate_similarity (joinNL (rustLines c)) c).val = 1 := by
  have hcne : c ≠ [] := by
    intro hc
    subst hc
    simp [rustLines] at hmn
  set n := (rustLines c).length with hn
  set wt := joinNL (rustLines c) with hwt
  have hjoin : wt ++ (if c.getLast? = some '\n' then ['\n'] else []) = c :=
    joinNL_rustLines hcne hcr
  have hWeq : splitWS wt = splitWS c := by
    by_cases hl : c.getLast? = some '\n'
    · rw [if_pos hl] at hjoin
      conv_rhs => rw [← hjoin]
      rw [splitWS_append_ws (by decide)]
    · rw [if_neg hl, List.append_nil] at hjoin
      rw [hjoin]
  have hsim : calculate_similarity wt c =
      ⟨(splitWS c).length, (splitWS c).length⟩ :=
    calculate_similarity_self hWeq hwords
  have hL : 1 ≤ (splitWS c).length :=
    Nat.pos_of_ne_zero (fun h => hwords (List.length_eq_zero.mp h))
  have hval : (calculate_similarity wt c).val = 1 := by
    rw [hsim]
    exact sim_val_self hL
  refine ⟨?_, hval⟩
  have hmin : min n 50 = n := Nat.min_eq_left h50
  have hwindow : ((rustLines c).drop 0).take n = rustLines c := by
    rw [List.drop_zero, hn]
    exact List.take_length _
  have hfull : windowSpan (rustLines c) c n 0 =
      some ⟨wt, 0, 0 + n, calculate_similarity wt c⟩ := by
    apply windowSpan_eq_some_iff.mpr
    rw [hwindow]
    refine ⟨?_, ?_, rfl⟩
    · apply (findSub_isSome_iff _ _).mpr
      exact ⟨[], if c.getLast? = some '\n' then ['\n'] else [], by
        rw [List.nil_append, ← hwt, hjoin]⟩
    · apply simGT08_iff_val.mpr
      rw [← hwt, hval]
      norm_num
  have hrawstruct : rawCandidates c c m =
      ⟨wt, 0, 0 + n, calculate_similarity wt c⟩ ::
        ((List.range' m (n - m)).reverse.flatMap
          (fun ws => (List.range ((rustLines c).length + 1 - ws)).filterMap
            (windowSpan (rustLines c) c ws))) := by
    simp only [rawCandidates]
    rw [← hn, hmin, revRange_eq_cons (le_of_lt hmn), List.flatMap_cons]
    have h1 : n + 1 - n = 1 := by omega
    rw [h1]
    have h2 : List.range 1 = [0] := rfl
    rw [h2]
    rw [List.filterMap_cons, hfull]
    rfl
  set D0 : DuplicateInfo := ⟨wt, 0, 0 + n, calculate_similarity wt c⟩ with hD0
  set rest := (List.range' m (n - m)).reverse.flatMap
    (fun ws => (List.range ((rustLines c).length + 1 - ws)).filterMap
      (windowSpan (rustLines c) c ws)) with hrest
  have hrest_raw : ∀ y ∈ rest, y ∈ rawCandidates c c m := by
    intro y hy
    rw [hrawstruct]
    exact List.mem_cons_of_mem _ hy
  have hGE : ∀ y ∈ rest, simGE D0 y := by
    intro y hy
    apply simGE_iff_val.mpr
    have : D0.similarity.val = 1 := hval
    rw [this]
    exact (rawCandidates_bounds (hrest_raw y hy)).2
  have hsort : List.insertionSort simGE (D0 :: rest) =
      D0 :: List.insertionSort simGE rest :=
    insertionSort_cons_of_forall hGE
  have hfilter : (List.insertionSort simGE rest).filter
      (fun y => !ranges_overlap D0.start_line D0.end_line y.start_line y.end_line)
      = [] := by
    apply List.filter_eq_nil_iff.mpr
    intro y hy
    have hyrest : y ∈ rest := (List.perm_insertionSort simGE rest).mem_iff.mp hy
    have hstart : y.start_line ≤ n := (rawCandidates_bounds (hrest_raw y hyrest)).1
    have hov : ranges_overlap 0 n y.start_line y.end_line = true := by
      simp only [ranges_overlap, Bool.and_eq_true, decide_eq_true_eq]
      omega
    simp [hov]
  have hdetect : detect_duplicates c c (some m) =
      some (deduplicate_results (rawCandidates c c m)) := by
    simp only [detect_duplicates, Option.getD_some]
    rw [if_neg (by omega)]
  rw [hdetect, hrawstruct, deduplicate_results, hsort]
  rw [List.length_cons, dedupSweep, hfilter]
  have hnil : dedupSweep rest.length ([] : List DuplicateInfo) = [] := by
    cases rest.length <;> rfl
  rw [hnil]
  rw [hD0]
  have hzero : 0 + n = n := by omega
  rw [hzero]

/-- Witness for the amended C3 at the concrete candidate `"ab\ncd"` with
`min_length = 1`. -/
theorem claim_C3_witness :
    detect_duplicates "ab\ncd".toList "ab\ncd".toList (some 1) =
      some [⟨joinNL (rustLines "ab\ncd".toList), 0,
        (rustLines "ab\ncd".toList).length,
        calculate_similarity (joinNL (rustLines "ab\ncd".toList)) "ab\ncd".toList⟩] ∧
      (calculate_similarity (joinNL (rustLines "ab\ncd".toList))
        "ab\ncd".toList).val = 1 :=
  claim_C3_amended "ab\ncd".toList 1 (by decide) (by decide) (by decide)
    (by decide) (by decide)

/-! ### Helper lemmas: registry and pool -/

theorem mem_of_lookup_eq_some {α : Type} {l : List (String × α)} {k : String}
    {v : α} (h : l.lookup k = some v) : (k, v) ∈ l := by
  induction l with
  | nil => cases h
  | cons p rest ih =>
    rw [List.lookup] at h
    by_cases hk : (k == p.1) = true
    · rw [hk] at h
      have hk' : k = p.1 := by simpa using hk
      have hv : p.2 = v := Option.some.inj h
      have hp : (k, v) = p := by
        rw [hk', ← hv]
      exact hp ▸ List.mem_cons_self p rest
    · have hk' : (k == p.1) = false := by simpa using hk
      rw [hk'] at h
      exact List.mem_cons_of_mem _ (ih h)

theorem lookup_append_of_none {α : Type} {ps qs : List (String × α)} {k : String}
    (h : ps.lookup k = none) : (ps ++ qs).lookup k = qs.lookup k := by
  induction ps with
  | nil => rfl
  | cons p rest ih =>
    rw [List.lookup] at h
    rw [List.cons_append, List.lookup]
    by_cases hk : (k == p.1) = true
    · rw [hk] at h
      cases h
    · have hk' : (k == p.1) = false := by simpa using hk
      rw [hk'] at h
      rw [hk']
      exact ih h

theorem initCache_idem (s : GlobalState) : initCache (initCache s) = initCache s := by
  simp [initCache]

/-- The unknown-id arm of `load_language` is hit exactly off the supported
set. -/
theorem loadLang_eq_none_iff (id : String) :
    loadLang id = none ↔ id ∉ supportedIds := by
  constructor
  · intro h
    simp only [supportedIds, List.mem_cons, List.not_mem_nil, or_false]
    intro hmem
    rw [loadLang] at h
    rcases hmem with rfl|rfl|rfl|rfl|rfl|rfl|rfl|rfl|rfl|rfl|rfl|rfl|rfl <;> simp at h
  · intro hmem
    simp only [supportedIds, List.mem_cons, List.not_mem_nil, or_false, not_or] at hmem
    obtain ⟨n1, n2, n3, n4, n5, n6, n7, n8, n9, n10, n11, n12, n13⟩ := hmem
    rw [loadLang]
    rw [if_neg (fun h => h.elim n1 n2), if_neg (fun h => h.elim n3 n4),
      if_neg n5, if_neg n6, if_neg n7, if_neg n8,
      if_neg (fun h => h.elim n9 n10), if_neg n11, if_neg n12, if_neg n13]

/-- `get_language` leaves the parser map untouched. -/
theorem getLanguage_parsers (s : GlobalState) (id : String) :
    (getLanguage s id).2.parsers = some (s.parsers.getD []) := by
  simp only [getLanguage, initCache]
  cases hlk : (s.languages.getD []).lookup id with
  | some lang => simp [hlk]
  | none => cases hld : loadLang id <;> simp [hlk, hld]

/-- `get_language` leaves the allocation counter untouched. -/
theorem getLanguage_nextHandle (s : GlobalState) (id : String) :
    (getLanguage s id).2.nextHandle = s.nextHandle := by
  simp only [getLanguage, initCache]
  cases hlk : (s.languages.getD []).lookup id with
  | some lang => simp [hlk]
  | none => cases hld : loadLang id <;> simp [hlk, hld]

/-- Whenever `get_parser` succeeds, the returned handle is exactly the one
stored in the parser map under that language id. -/
theorem getParser_ok_lookup {s : GlobalState} {id : String} {h : Nat}
    {s' : GlobalState} (hp : getParser s id = (.ok h, s')) :
    ∃ ps, s'.parsers = some ps ∧ ps.lookup id = some h := by
  simp only [getParser, initCache] at hp
  by_cases hc : ((s.parsers.getD []).lookup id).isSome = true
  · obtain ⟨v, hv⟩ := Option.isSome_iff_exists.mp hc
    rw [if_pos hc, hv] at hp
    simp only [Option.getD_some] at hp
    obtain ⟨hval, hst⟩ := Prod.mk.inj hp
    subst hst
    exact ⟨s.parsers.getD [], rfl, by rw [hv, Except.ok.inj hval]⟩
  · rw [if_neg hc] at hp
    rcases hgl : getLanguage
      { s with parsers := some (s.parsers.getD []),
               languages := some (s.languages.getD []) } id with ⟨r, s2⟩
    rw [hgl] at hp
    cases r with
    | error e => exact absurd (Prod.mk.inj hp).1 (by simp)
    | ok lang =>
      simp only at hp
      have hs2p : s2.parsers = some (s.parsers.getD []) := by
        have hgp := getLanguage_parsers
          { s with parsers := some (s.parsers.getD []),
                   languages := some (s.languages.getD []) } id
        rw [hgl] at hgp
        simpa using hgp
      have hnone : (s.parsers.getD []).lookup id = none := by
        cases hx : (s.parsers.getD []).lookup id with
        | none => rfl
        | some v => rw [hx] at hc; simp at hc
      have hself : ((s2.parsers.getD [] ++ [(id, s2.nextHandle)]).lookup id)
          = some s2.nextHandle := by
        rw [hs2p]
        simp only [Option.getD_some]
        rw [lookup_append_of_none hnone]
        simp [List.lookup]
      rw [hself] at hp
      simp only [Option.getD_some] at hp
      obtain ⟨hval, hst⟩ := Prod.mk.inj hp
      subst hst
      refine ⟨s2.parsers.getD [] ++ [(id, s2.nextHandle)], rfl, ?_⟩
      rw [hself, Except.ok.inj hval]

/-- C1: the parser pool hands every caller requesting the same language id
the same parser handle — there is no checkout/checkin discipline, so two
callers of `get_parser` (as scheduled concurrently by
`parse_files_parallel`) receive aliases of one mutable parser object.  This
contradicts the claimed exclusive-ownership invariant: the code is the
naive shared-single-handle design the specification rules out. -/
theorem claim_C1 (s : GlobalState) (id : String) (h1 h2 : Nat)
    (s1 s2 : GlobalState) (hA : getParser s id = (.ok h1, s1))
    (hB : getParser s1 id = (.ok h2, s2)) : h1 = h2 := by
  obtain ⟨ps, hps, hlk⟩ := getParser_ok_lookup hA
  have heq : getParser s1 id = (.ok h1, initCache s1) := by
    simp only [getParser, initCache, hps, Option.getD_some]
    rw [hlk]
    simp
  rw [heq] at hB
  exact Except.ok.inj (Prod.mk.inj hB).1

/-- Witness for C1: from a fresh process, two `get_parser "python"` calls
both return handle `0` — the same parser object. -/
theorem claim_C1_witness : (0 : Nat) = 0 :=
  claim_C1 initialState "python" 0 0
    ⟨some [("python", 0)], some [("python", Lang.python)], 1⟩
    ⟨some [("python", 0)], some [("python", Lang.python)], 1⟩
    (by rfl) (by rfl)

/-- From a well-formed state, an unknown language id makes `get_parser`
fail with the `Unsupported language` error and leave only the trivial
`init_cache` normalisation behind. -/
theorem getParser_unsupported {s : GlobalState} {id : String}
    (hWF : WellFormed s) (hload : loadLang id = none) :
    getParser s id = (.error ("Unsupported language: " ++ id), initCache s) := by
  have hplk : (s.parsers.getD []).lookup id = none := by
    cases hx : (s.parsers.getD []).lookup id with
    | none => rfl
    | some v =>
      exfalso
      have hw := hWF.1 _ (mem_of_lookup_eq_some hx)
      rw [hload] at hw
      simp at hw
  have hllk : (s.languages.getD []).lookup id = none := by
    cases hx : (s.languages.getD []).lookup id with
    | none => rfl
    | some L =>
      exfalso
      have hw := hWF.2 _ (mem_of_lookup_eq_some hx)
      rw [hload] at hw
      cases hw
  simp only [getParser, initCache, hplk]
  rw [if_neg (by simp)]
  simp only [getLanguage, initCache, Option.getD_some, hllk, hload]

/-- `init_cache` does not change the reported statistics. -/
theorem getCacheStats_initCache (s : GlobalState) :
    (getCacheStats (initCache s)).1 = (getCacheStats s).1 := by
  simp [getCacheStats, initCache]

/-- C2: for every language id outside the supported set, `parse_ast` fails
with the `Unsupported language` error (never a fallback grammar), and the
parser and language counts reported by `get_cache_stats` are unchanged by
the failing call. -/
theorem claim_C2 (oracle : String → String → Option RawNode) (s : GlobalState)
    (code id : String) (hWF : WellFormed s) (hid : id ∉ supportedIds) :
    (parseAst oracle s code id).1 = .error ("Unsupported language: " ++ id) ∧
      (getCacheStats (parseAst oracle s code id).2).1 = (getCacheStats s).1 := by
  have hload : loadLang id = none := (loadLang_eq_none_iff id).mpr hid
  have hgp := getParser_unsupported hWF hload
  constructor
  · simp only [parseAst, hgp]
  · simp only [parseAst, hgp]
    exact getCacheStats_initCache s

/-- Witness for C2: the id `"cobol"` from a fresh process. -/
theorem claim_C2_witness :
    (parseAst (fun _ _ => none) initialState "" "cobol").1 =
        .error ("Unsupported language: " ++ "cobol") ∧
      (getCacheStats (parseAst (fun _ _ => none) initialState "" "cobol").2).1 =
        (getCacheStats initialState).1 :=
  claim_C2 (fun _ _ => none) initialState "" "cobol" (by decide) (by decide)

/-- C9: immediately after `clear_parser_cache`, `get_cache_stats` reports
zero parsers and zero languages; a subsequent successful `parse_ast` for a
supported language id succeeds and repopulates both counts to exactly 1. -/
theorem claim_C9 (oracle : String → String → Option RawNode) (s : GlobalState)
    (code id : String) (L : Lang) (root : RawNode)
    (hload : loadLang id = some L) (horacle : oracle code id = some root) :
    (getCacheStats (clearParserCache s)).1 = ⟨0, 0⟩ ∧
      (parseAst oracle (clearParserCache s) code id).1 =
        .ok (some (node_to_ast root (utf8Encode code))) ∧
      (getCacheStats (parseAst oracle (clearParserCache s) code id).2).1 =
        ⟨1, 1⟩ := by
  have hgp : getParser (clearParserCache s) id =
      (.ok s.nextHandle,
        ⟨some [(id, s.nextHandle)], some [(id, L)], s.nextHandle + 1⟩) := by
    simp [getParser, initCache, clearParserCache, getLanguage, hload, List.lookup]
  refine ⟨by simp [getCacheStats, clearParserCache, initCache], ?_, ?_⟩
  · simp only [parseAst, hgp, horacle]
  · simp only [parseAst, hgp, horacle]
    simp [getCacheStats, initCache]

/-- Witness for C9: language `"go"` with an oracle that parses `"x"` to a
single root node, from an arbitrary fresh process state. -/
theorem claim_C9_witness :
    (getCacheStats (clearParserCache initialState)).1 = ⟨0, 0⟩ ∧
      (parseAst (fun _ _ => some (RawNode.node "source_file" 0 0 0 1 0 1 []))
          (clearParserCache initialState) "x" "go").1 =
        .ok (some (node_to_ast (RawNode.node "source_file" 0 0 0 1 0 1 [])
          (utf8Encode "x"))) ∧
      (getCacheStats (parseAst
          (fun _ _ => some (RawNode.node "source_file" 0 0 0 1 0 1 []))
          (clearParserCache initialState) "x" "go").2).1 = ⟨1, 1⟩ :=
  claim_C9 (fun _ _ => some (RawNode.node "source_file" 0 0 0 1 0 1 []))
    initialState "x" "go" Lang.go (RawNode.node "source_file" 0 0 0 1 0 1 [])
    (by rfl) (by rfl)

/-- `get_language` can only fail on an unknown id. -/
theorem getLanguage_error_loadLang {s : GlobalState} {id : String} {e : String}
    {s' : GlobalState} (h : getLanguage s id = (.error e, s')) :
    loadLang id = none := by
  simp only [getLanguage, initCache] at h
  cases hlk : (s.languages.getD []).lookup id with
  | some lang =>
    rw [hlk] at h
    exact absurd (Prod.mk.inj h).1 (by simp)
  | none =>
    rw [hlk] at h
    cases hld : loadLang id with
    | some lang =>
      rw [hld] at h
      exact absurd (Prod.mk.inj h).1 (by simp)
    | none => rfl

/-- From a well-formed state, a successful `get_language` returns exactly
the grammar `loadLang` associates with the id. -/
theorem getLanguage_ok_loadLang {s : GlobalState} {id : String} {L : Lang}
    {s' : GlobalState} (hWF : WellFormed s)
    (h : getLanguage s id = (.ok L, s')) : loadLang id = some L := by
  simp only [getLanguage, initCache] at h
  cases hlk : (s.languages.getD []).lookup id with
  | some lang =>
    rw [hlk] at h
    simp only at h
    have hv : lang = L := Except.ok.inj (Prod.mk.inj h).1
    subst hv
    exact hWF.2 _ (mem_of_lookup_eq_some hlk)
  | none =>
    rw [hlk] at h
    simp only at h
    cases hld : loadLang id with
    | some lang =>
      rw [hld] at h
      simp only at h
      have hv : lang = L := Except.ok.inj (Prod.mk.inj h).1
      subst hv
      rfl
    | none =>
      rw [hld] at h
      simp only at h
      exact absurd (Prod.mk.inj h).1 (by simp)

theorem WF_initCache {s : GlobalState} (hWF : WellFormed s) :
    WellFormed (initCache s) := by
  simpa [WellFormed, initCache] using hWF

/-- `get_language` preserves well-formedness: it only caches pairs
`(id, loadLang id)`. -/
theorem WF_getLanguage {s : GlobalState} (id : String) (hWF : WellFormed s) :
    WellFormed (getLanguage s id).2 := by
  simp only [getLanguage, initCache]
  cases hlk : (s.languages.getD []).lookup id with
  | some lang => exact WF_initCache hWF
  | none =>
    cases hld : loadLang id with
    | none => exact WF_initCache hWF
    | some lang =>
      constructor
      · intro p hp
        exact hWF.1 _ (by simpa using hp)
      · intro q hq
        simp only [Option.getD_some] at hq
        rcases List.mem_append.mp hq with hmem | hmem
        · exact hWF.2 _ hmem
        · have hq' : q = (id, lang) := by simpa using hmem
          subst hq'
          exact hld

/-- `get_parser` preserves well-formedness: it only caches a parser for an
id whose grammar loaded. -/
theorem WF_getParser {s : GlobalState} (id : String) (hWF : WellFormed s) :
    WellFormed (getParser s id).2 := by
  have hWF1 : WellFormed (initCache s) := WF_initCache hWF
  simp only [getParser, initCache]
  by_cases hc : ((s.parsers.getD []).lookup id).isSome = true
  · rw [if_pos hc]
    exact hWF1
  · rw [if_neg hc]
    rcases hgl : getLanguage
      { s with parsers := some (s.parsers.getD []),
               languages := some (s.languages.getD []) } id with ⟨r, s2⟩
    have hWF2 : WellFormed s2 := by
      have hp := WF_getLanguage (s :=
        { s with parsers := some (s.parsers.getD []),
                 languages := some (s.languages.getD []) }) id hWF1
      rw [hgl] at hp
      exact hp
    cases r with
    | error e => exact hWF2
    | ok lang =>
      have hload : loadLang id = some lang := getLanguage_ok_loadLang hWF1 hgl
      constructor
      · intro p hp
        simp only [Option.getD_some] at hp
        rcases List.mem_append.mp hp with hmem | hmem
        · exact hWF2.1 _ hmem
        · have hp' : p = (id, s2.nextHandle) := by simpa using hmem
          subst hp'
          simp [hload]
      · intro q hq
        exact hWF2.2 _ (by simpa using hq)

/-- `parse_ast` hands back exactly the state `get_parser` produced. -/
theorem parseAst_snd (oracle : String → String → Option RawNode)
    (s : GlobalState) (code id : String) :
    (parseAst oracle s code id).2 = (getParser s id).2 := by
  rcases hgp : getParser s id with ⟨r, s1⟩
  cases r with
  | error e => simp [parseAst, hgp]
  | ok h =>
    simp only [parseAst, hgp]
    cases oracle code id <;> rfl

theorem WF_parseAst (oracle : String → String → Option RawNode)
    {s : GlobalState} (code id : String) (hWF : WellFormed s) :
    WellFormed (parseAst oracle s code id).2 := by
  rw [parseAst_snd]
  exact WF_getParser id hWF

theorem WF_initialState : WellFormed initialState :=
  ⟨fun p hp => absurd hp (List.not_mem_nil p),
    fun q hq => absurd hq (List.not_mem_nil q)⟩

/-- From a supported id, `get_parser` always succeeds (under the modelled
always-successful `set_language`). -/
theorem getParser_supported_ok {s : GlobalState} {id : String} {L : Lang}
    (hload : loadLang id = some L) :
    ∃ h s', getParser s id = (.ok h, s') := by
  simp only [getParser, initCache]
  by_cases hc : ((s.parsers.getD []).lookup id).isSome = true
  · rw [if_pos hc]
    exact ⟨_, _, rfl⟩
  · rw [if_neg hc]
    rcases hgl : getLanguage
      { s with parsers := some (s.parsers.getD []),
               languages := some (s.languages.getD []) } id with ⟨r, s2⟩
    cases r with
    | ok lang => exact ⟨_, _, rfl⟩
    | error e =>
      have := getLanguage_error_loadLang hgl
      rw [hload] at this
      cases this

/-- The value of `parse_ast` does not depend on the cache state: the caches
only memoize.  (Stated against the fresh-process run.) -/
theorem parseAst_fst (oracle : String → String → Option RawNode)
    {s : GlobalState} (code id : String) (hWF : WellFormed s) :
    (parseAst oracle s code id).1 = (parseAst oracle initialState code id).1 := by
  cases hld : loadLang id with
  | none =>
    rw [parseAst, parseAst, getParser_unsupported hWF hld,
      getParser_unsupported WF_initialState hld]
  | some L =>
    obtain ⟨hh1, s1', hgp1⟩ := getParser_supported_ok (s := s) hld
    obtain ⟨hh2, s2', hgp2⟩ := getParser_supported_ok (s := initialState) hld
    rw [parseAst, parseAst, hgp1, hgp2]
    cases oracle code id <;> simp

/-- Under the race-free sequential model, the batch call never errors and
returns one output per input in input order, each slot holding the result
of that item's own independent parse (`None` exactly when the standalone
parse would fail).  This is the contract the batch is meant to satisfy;
the racy program itself does not establish it for same-language batches. -/
theorem batchContract_of_race_free_model
    (oracle : String → String → Option RawNode) (s : GlobalState)
    (files : List (String × String)) (hWF : WellFormed s) :
    (parseFilesParallel oracle s files).1 =
      .ok (files.map fun cf => parseAstStandalone oracle cf.1 cf.2) := by
  suffices hfold : ∀ (acc : List (Option AstNode)) (st : GlobalState),
      WellFormed st →
      (files.foldl (batchStep oracle) (acc, st)).1 =
        acc ++ files.map (fun cf => parseAstStandalone oracle cf.1 cf.2) by
    have h0 := hfold [] s hWF
    rw [List.nil_append] at h0
    simp only [parseFilesParallel]
    exact congrArg Except.ok h0
  induction files with
  | nil =>
    intro acc st _
    simp
  | cons f fs ih =>
    intro acc st hst
    rw [List.foldl_cons, List.map_cons]
    have hWF' : WellFormed (parseAst oracle st f.1 f.2).2 :=
      WF_parseAst oracle f.1 f.2 hst
    have hval : unwrapOrNone (parseAst oracle st f.1 f.2).1 =
        parseAstStandalone oracle f.1 f.2 := by
      rw [parseAstStandalone, parseAst_fst oracle f.1 f.2 hst]
    have hstep : batchStep oracle (acc, st) f =
        (acc ++ [parseAstStandalone oracle f.1 f.2],
          (parseAst oracle st f.1 f.2).2) := by
      rw [batchStep, hval]
    rw [hstep,
      ih (acc ++ [parseAstStandalone oracle f.1 f.2]) _ hWF']
    simp

/-- C7: the claim's per-slot guarantee is not delivered by the code on the
batch that stresses it — two items of the same language id.  Evaluated at
that failing input: the parser handle the second item's `get_parser`
obtains is the very handle the first item just used, so the two rayon
workers the real batch schedules concurrently mutate one shared parser
object (and the unsynchronized `static mut` maps), a data race that voids
the claimed independent-outcome guarantee. -/
theorem claim_C7_race :
    ∃ h : Nat,
      (getParser initialState "python").1 = .ok h ∧
      (getParser (parseAst (fun _ _ => none) initialState "a" "python").2
        "python").1 = .ok h :=
  ⟨0, rfl, rfl⟩

theorem nodesToAst_isEmpty (cs : List RawNode) (source : List Nat) :
    (nodesToAst cs source).isEmpty = cs.isEmpty := by
  cases cs <;> rfl

mutual

/-- Every node of a converted tree carries text exactly when it has no
children. -/
theorem nodeAll_leaf_node (n : RawNode) (source : List Nat) :
    nodeAll (fun a => a.text.isSome == a.children.isEmpty)
      (node_to_ast n source) = true := by
  cases n with
  | node kind sr sc er ec sb eb cs =>
    rw [node_to_ast, nodeAll, Bool.and_eq_true]
    constructor
    · cases cs <;> rfl
    · exact nodesAll_leaf_nodes cs source

/-- `nodeAll_leaf_node` over a forest. -/
theorem nodesAll_leaf_nodes (cs : List RawNode) (source : List Nat) :
    nodesAll (fun a => a.text.isSome == a.children.isEmpty)
      (nodesToAst cs source) = true := by
  cases cs with
  | nil => rfl
  | cons c cs' =>
    rw [nodesToAst, nodesAll, Bool.and_eq_true]
    exact ⟨nodeAll_leaf_node c source, nodesAll_leaf_nodes cs' source⟩

end

/-- C8: in the converted tree, every node carries text iff it has zero
children; a leaf's text is the UTF-8 decoding of the byte span of the
source covered by the node, the empty string when that span is not valid
UTF-8, and internal nodes always have `text` absent. -/
theorem claim_C8 (n : RawNode) (source : List Nat) :
    nodeAll (fun a => a.text.isSome == a.children.isEmpty)
        (node_to_ast n source) = true ∧
      ∀ kind sr sc er ec sb eb cs,
        (node_to_ast (.node kind sr sc er ec sb eb cs) source).text =
          (if cs.isEmpty then some ((utf8Text source sb eb).getD "") else none) :=
  ⟨nodeAll_leaf_node n source, fun _ _ _ _ _ _ _ _ => rfl⟩

end Analyzer
